import Mathlib

/-!
Verification development for the pvm_kingdom Discord tile-race bot.

The definitions below are a shallow embedding of the submission → review →
ledger core of the repository (files `test-GPT.py`, `test-noGPT.py`,
`tilerace.py`).  Pure Python string manipulation is translated to functions
on `List Char` / `String`; the external collaborators (Google Sheets, the
Discord client, the OpenAI oracle, the rapidfuzz similarity library) are
modelled at their interfaces: sheet reads are passed in as values, sheet
writes and channel posts are returned as outputs, a fallible append is a
boolean outcome parameter, and the rapidfuzz scorer is either modelled
exactly (character ratio) or passed as a function parameter (token-set
ratio).
-/

/-- ASCII whitespace, as matched by Python's default `str.strip` and the
regex class backslash-s on the bot's ASCII data. -/
def isPySpace (c : Char) : Bool :=
  c = ' ' || c = '\t' || c = '\n' || c = '\x0d' || c = '\x0b' || c = '\x0c'

/-- Drop trailing characters satisfying `p`. -/
def dropEndWhile (p : Char → Bool) (l : List Char) : List Char :=
  (l.reverse.dropWhile p).reverse

/-- Python `str.strip()` on a character list. -/
def pyStripL (l : List Char) : List Char :=
  dropEndWhile isPySpace (l.dropWhile isPySpace)

/-- Python `str.strip()`. -/
def pyStrip (s : String) : String :=
  ⟨pyStripL s.data⟩

/-- Python `str.lower()` on the ASCII data the bot handles. -/
def pyLower (s : String) : String :=
  ⟨s.data.map Char.toLower⟩

/-- Is `c` in `[a-z0-9]` (the characters the normalisation regexes keep,
after lowercasing)? -/
def isLowerAlnum (c : Char) : Bool :=
  ('a' ≤ c && c ≤ 'z') || ('0' ≤ c && c ≤ '9')

/-- Split a character list into maximal runs of non-whitespace characters,
like Python `str.split()` with no argument (empty runs are dropped). -/
def pyWordsAux (cur : List Char) (acc : List (List Char)) : List Char → List (List Char)
  | [] => if cur = [] then acc.reverse else (cur.reverse :: acc).reverse
  | c :: rest =>
      if isPySpace c then
        if cur = [] then pyWordsAux [] acc rest
        else pyWordsAux [] (cur.reverse :: acc) rest
      else pyWordsAux (c :: cur) acc rest

/-- The whitespace-separated words of a character list. -/
def pyWords (l : List Char) : List (List Char) :=
  pyWordsAux [] [] l

/-- Join word lists with single spaces (the effect of collapsing runs of
whitespace and stripping the ends). -/
def joinSpace (ws : List (List Char)) : List Char :=
  match ws with
  | [] => []
  | w :: rest => w ++ (rest.flatMap (fun w' => ' ' :: w'))

/-- Function `_norm` from `test-GPT.py`: lowercase, replace every character outside
`[a-z0-9]` and whitespace by a space, collapse whitespace and strip. -/
def normText (s : String) : String :=
  let mapped := s.data.map (fun c =>
    let c := c.toLower
    if isLowerAlnum c || isPySpace c then c else ' ')
  ⟨joinSpace (pyWords mapped)⟩

/-- Function `_norm_name_for_compare` from `test-GPT.py`: lowercase, underscores to
spaces, characters outside `[a-z0-9]` and whitespace removed, whitespace
collapsed and stripped. -/
def normNameCompare (s : String) : String :=
  let mapped := (s.data.map Char.toLower).map (fun c => if c = '_' then ' ' else c)
  let kept := mapped.filter (fun c => isLowerAlnum c || isPySpace c)
  ⟨joinSpace (pyWords kept)⟩

/-- One dynamic-programming row update for the longest common subsequence:
given the previous row (for `ys`, length `ys.length + 1`), the next
character `x` and the value to the left, produce the rest of the next row. -/
def lcsRowAux (x : Char) : List Char → List ℕ → ℕ → List ℕ
  | [], _, _ => []
  | y :: ys, prev, left =>
      match prev with
      | [] => []
      | diag :: rest =>
          let up := rest.headD 0
          let cur := if x = y then diag + 1 else max left up
          cur :: lcsRowAux x ys rest cur

/-- Length of a longest common subsequence of two character lists
(row-by-row dynamic programming). -/
def lcs (xs ys : List Char) : ℕ :=
  (xs.foldl (fun row x => 0 :: lcsRowAux x ys row 0)
    (List.replicate (ys.length + 1) 0)).getLastD 0

/-- Model of rapidfuzz `fuzz.ratio`: the normalized Indel similarity of the
two strings as a percentage.  With Indel distance
`la + lb - 2 * lcs`, the similarity is `2 * lcs / (la + lb)`; rapidfuzz
returns `100` when both strings are empty. -/
def fuzzRatio (a b : List Char) : ℚ :=
  if a.length + b.length = 0 then 100
  else (200 * lcs a b : ℚ) / (a.length + b.length)

/-- The comparison `fuzz.ratio(a, b) >= t` for an integer threshold `t`,
computed in exact integer arithmetic (`ratioGe_iff` below proves it equal
to comparing `fuzzRatio` with `t`). -/
def ratioGe (t : ℕ) (a b : List Char) : Bool :=
  if a.length + b.length = 0 then decide (t ≤ 100)
  else decide (t * (a.length + b.length) ≤ 200 * lcs a b)

/-- Function `names_match` from `test-GPT.py`: strict normalized comparison with the
character-ratio fuzzy fallback at `threshold` (default 90). -/
def names_match (rsn dn : String) (threshold : ℕ) : Bool :=
  let a := normNameCompare rsn
  let b := normNameCompare dn
  if a = "" || b = "" then false
  else if a = b then true
  else ratioGe threshold a.data b.data

/-- Does `hay` start with `needle`? -/
def startsWithSeq : List Char → List Char → Bool
  | [], _ => true
  | _ :: _, [] => false
  | a :: as', b :: bs => a = b && startsWithSeq as' bs

/-- Python's substring test `needle in hay`. -/
def containsSeq (needle : List Char) : List Char → Bool
  | [] => needle.isEmpty
  | c :: rest => startsWithSeq needle (c :: rest) || containsSeq needle rest

/-- Table `ALIAS_HINTS` from `test-GPT.py`: abbreviation to full-name table, in
insertion order. -/
def aliasHints : List (String × String) :=
  [("toa", "tombs of amascut"),
   ("cox", "chambers of xeric"),
   ("tob", "theatre of blood"),
   ("zcb", "zaryte crossbow"),
   ("dwh", "dragon warhammer"),
   ("sra", "soulreaper axe")]

/-- Add a string to a Python-set model: a duplicate-free list in first-insertion
order. -/
def setAdd (l : List String) (s : String) : List String :=
  if s ∈ l then l else l ++ [s]

/-- The expansion of the detected set in `best_match_tile_activity`:
normalised detected strings, plus alias expansions for exact alias keys and
for alias keys occurring as substrings. -/
def expandDetected (detected : List String) : List String :=
  detected.foldl (fun acc raw =>
    let n := normText raw
    if n = "" then acc
    else
      let acc1 := setAdd acc n
      let acc2 :=
        match aliasHints.lookup n with
        | some v => setAdd acc1 (normText v)
        | none => acc1
      aliasHints.foldl (fun a kv =>
        if containsSeq kv.1.data n.data then setAdd a (normText kv.2) else a) acc2) []

/-- One candidate of the fuzzy matcher: the normalised comparison label, the
tile it belongs to, and the activity/item (`none` for a tile-only candidate). -/
structure Cand where
  label : String
  tile : String
  act : Option String
deriving DecidableEq

/-- One retained row of the matcher's debug trace:
`(score, det, cand_label, tile, act)`. -/
structure DebugRow where
  score : ℚ
  det : String
  label : String
  tile : String
  act : Option String
deriving DecidableEq

/-- The matcher's running best entry:
`(score, tile, act, det, cand_label)`. -/
structure BestEntry where
  score : ℚ
  tile : String
  act : Option String
  det : String
  label : String
deriving DecidableEq

/-- The candidate list of `best_match_tile_activity`: for each tile (in
insertion order) the tile itself and then each of its activities. -/
def mkCandidates (ta : List (String × List String)) : List Cand :=
  ta.flatMap (fun p =>
    ⟨normText p.1, p.1, none⟩ :: p.2.map (fun a => ⟨normText a, p.1, some a⟩))

/-- One (detected, candidate) step of the matcher's scan: retain the pair in
the debug rows when its score is at least 60, and make it the running best
when it is at least the threshold and strictly beats the current best. -/
def matchStep (sc : String → String → ℚ) (th : ℚ)
    (st : Option BestEntry × List DebugRow) (det : String) (c : Cand) :
    Option BestEntry × List DebugRow :=
  let s := sc det c.label
  let dbg := if (60 : ℚ) ≤ s then st.2 ++ [⟨s, det, c.label, c.tile, c.act⟩] else st.2
  let best :=
    if th ≤ s then
      match st.1 with
      | none => some ⟨s, c.tile, c.act, det, c.label⟩
      | some b => if b.score < s then some ⟨s, c.tile, c.act, det, c.label⟩ else some b
    else st.1
  (best, dbg)

/-- The matcher's double loop over the expanded detected set and the
candidate list. -/
def scanPairs (sc : String → String → ℚ) (th : ℚ)
    (expanded : List String) (cands : List Cand) :
    Option BestEntry × List DebugRow :=
  expanded.foldl
    (fun st det => cands.foldl (fun st' c => matchStep sc th st' det c) st)
    (none, [])

/-- Stable insertion for a score-descending sort (a new row goes after every
row of greater or equal score), modelling Python's stable
`list.sort(reverse=True, key=score)`. -/
def insDesc (r : DebugRow) : List DebugRow → List DebugRow
  | [] => [r]
  | x :: xs => if r.score ≤ x.score then x :: insDesc r xs else r :: x :: xs

/-- Stable score-descending sort of the debug rows. -/
def sortDesc (l : List DebugRow) : List DebugRow :=
  l.foldl (fun acc r => insDesc r acc) []

/-- First-key lookup in a Python-dict model (an association list with unique
keys). -/
def lookupTA (ta : List (String × List String)) (t : String) : Option (List String) :=
  ta.lookup t

/-- Expression `tile_activities[tile][0] if tile_activities[tile] else None`: the
tile's first activity when it has one. -/
def firstItemOf (ta : List (String × List String)) (t : String) : Option String :=
  match lookupTA ta t with
  | some (a :: _) => some a
  | _ => none

/-- Function `best_match_tile_activity` from `test-GPT.py`, with the external
rapidfuzz `fuzz.token_set_ratio` passed in as the scorer `sc`.  Returns
`(matched_tile, matched_activity, debug_rows)`; the Python `or` fallback for
a falsy activity (None or the empty string) picks the tile's first activity
when the tile has one. -/
def best_match_tile_activity (sc : String → String → ℚ) (detected : List String)
    (ta : List (String × List String)) (th : ℚ) :
    Option String × Option String × List DebugRow :=
  let cands := mkCandidates ta
  let expanded := expandDetected detected
  let res := scanPairs sc th expanded cands
  let dbg := (sortDesc res.2).take 10
  match res.1 with
  | some b =>
      let act : Option String :=
        match b.act with
        | some a => if a = "" then firstItemOf ta b.tile else some a
        | none => firstItemOf ta b.tile
      (some b.tile, act, dbg)
  | none => (none, none, dbg)

/-- Every (detected, candidate) pair the matcher's double loop visits, in
visit order. -/
def allPairs (detected : List String) (ta : List (String × List String)) :
    List (String × Cand) :=
  (expandDetected detected).flatMap (fun d => (mkCandidates ta).map (fun c => (d, c)))

/-- The score of one (detected, candidate) pair. -/
def pairScore (sc : String → String → ℚ) (p : String × Cand) : ℚ :=
  sc p.1 p.2.label

/-- The debug row a pair would contribute. -/
def pairRow (sc : String → String → ℚ) (p : String × Cand) : DebugRow :=
  ⟨pairScore sc p, p.1, p.2.label, p.2.tile, p.2.act⟩

/-- The best entry a pair would install. -/
def pairBest (sc : String → String → ℚ) (p : String × Cand) : BestEntry :=
  ⟨pairScore sc p, p.2.tile, p.2.act, p.1, p.2.label⟩

/-- The pairs the matcher accepts as match candidates: the visited pairs
whose score reaches the threshold, in visit order. -/
def acceptedPairs (sc : String → String → ℚ) (th : ℚ) (detected : List String)
    (ta : List (String × List String)) : List (String × Cand) :=
  (allPairs detected ta).filter (fun p => decide (th ≤ pairScore sc p))

/-- Split a character list at the separator characters of
`split_items_field`'s regex (comma, semicolon, newline); `\r\n` is covered
because the stray `\r` is whitespace stripped from the piece ends. -/
def splitSepsAux (cur : List Char) (acc : List (List Char)) : List Char → List (List Char)
  | [] => (cur.reverse :: acc).reverse
  | c :: rest =>
      if c = ',' || c = ';' || c = '\n' then splitSepsAux [] (cur.reverse :: acc) rest
      else splitSepsAux (c :: cur) acc rest

/-- All pieces of a character list between separator characters. -/
def splitSeps (l : List Char) : List (List Char) :=
  splitSepsAux [] [] l

/-- The keep-first dedupe step of `split_items_field`: drop empty pieces
and pieces whose lowercase form was already seen. -/
def splitDedupStep (st : List String × List String) (p : String) :
    List String × List String :=
  if p = "" then st
  else if (pyLower p) ∈ st.2 then st
  else (st.1 ++ [p], pyLower p :: st.2)

/-- Function `split_items_field` from `tilerace.py`: split on comma/semicolon/newline
(whitespace around separators absorbed), drop empties, dedupe
case-insensitively keeping the first spelling. -/
def split_items_field (s : String) : List String :=
  if s = "" then []
  else
    let pieces := (splitSeps (pyStripL s.data)).map (fun p => (⟨pyStripL p⟩ : String))
    (pieces.foldl splitDedupStep ([], [])).1

/-- Replace the value at an exact key of an association-list dict, keeping
its position; append the key when it is new (Python dict insertion order). -/
def mapSet : List (String × List String) → String → List String → List (String × List String)
  | [], t, l => [(t, l)]
  | (k, v) :: rest, t, l =>
      if k = t then (t, l) :: rest else (k, v) :: mapSet rest t l

/-- The per-item accumulation inside `_load_from_tiles_sheet`: re-read the
items already under the row's exact tile key, skip the item when its
lowercase form is already present, else append it under that key. -/
def loadItemStep (tile : String) (m : List (String × List String)) (it : String) :
    List (String × List String) :=
  let curr := (m.lookup tile).getD []
  if (curr.map pyLower).contains (pyLower it) then m
  else mapSet m tile (curr ++ [it])

/-- One data row of `_load_from_tiles_sheet`: skip empty rows and blank
tiles, record the tile name once (case-insensitively), fold the row's split
items in under the row's exact tile string. -/
def loadRowStep (st : List String × List (String × List String))
    (row : List String) : List String × List (String × List String) :=
  if row = [] then st
  else
    let tile := pyStrip (row.headD "")
    let itemsRaw := pyStrip (row.getD 2 "")
    if tile = "" then st
    else
      let names :=
        if (st.1.map pyLower).contains (pyLower tile) then st.1 else st.1 ++ [tile]
      let m := (split_items_field itemsRaw).foldl (loadItemStep tile) st.2
      (names, m)

/-- Function `_load_from_tiles_sheet` from `tilerace.py` applied to the raw sheet
rows: returns `(tile_names, tile_items)`.  Tile names are deduplicated
case-insensitively; items are accumulated under the row's exact tile
string and capped at 25 per key. -/
def load_from_tiles_sheet (rows : List (List String)) :
    List String × List (String × List String) :=
  let st := (rows.drop 1).foldl loadRowStep
    (([], []) : List String × List (String × List String))
  (st.1, st.2.map (fun kv => (kv.1, kv.2.take 25)))

/-- Case-insensitive union step: append the item unless its lowercase form
is already present. -/
def addItemCI (acc : List String) (it : String) : List String :=
  if (acc.map pyLower).contains (pyLower it) then acc else acc ++ [it]

/-- The items one data row contributes to the exact tile key `t`. -/
def itemsRowStep (t : String) (acc : List String) (row : List String) :
    List String :=
  if row = [] then acc
  else
    let tile := pyStrip (row.headD "")
    if tile = "" then acc
    else if tile = t then
      (split_items_field (pyStrip (row.getD 2 ""))).foldl addItemCI acc
    else acc

/-- The case-insensitive union, in first-appearance order, of the split
items of every data row whose stripped tile cell equals `t` exactly. -/
def itemsAccum (rows : List (List String)) (t : String) : List String :=
  (rows.drop 1).foldl (itemsRowStep t) []

/-- Python `int()` on the decimal strings held in the sheet cells: strip
whitespace; a non-empty all-digit string parses, anything else raises
(modelled as `none`). -/
def pyNatParse (s : String) : Option ℕ :=
  let t := pyStripL s.data
  if t ≠ [] ∧ t.all Char.isDigit then
    some (t.foldl (fun n c => n * 10 + (c.toNat - '0'.toNat)) 0)
  else none

/-- One resolved routing entry from the TeamDetails sheet:
the lookup-key cell and the three channel ids. -/
structure TeamEntry where
  sid : String
  approval : ℕ
  approved : ℕ
  denied : ℕ
deriving DecidableEq

/-- Function `get_channel_ids_for_submission`: scan the TeamDetails rows below the
header for the first row of length at least 5 whose second cell equals the
key; convert its three channel cells with `int()` (a conversion failure is
caught and yields `None`). -/
def get_channel_ids (rows : List (List String)) (sid : String) : Option TeamEntry :=
  match (rows.drop 1).find? (fun row =>
      decide (5 ≤ row.length) && (row.getD 1 "" == sid)) with
  | none => none
  | some row =>
      match pyNatParse (row.getD 2 ""), pyNatParse (row.getD 3 ""),
            pyNatParse (row.getD 4 "") with
      | some a, some b, some c => some ⟨row.getD 1 "", a, b, c⟩
      | _, _, _ => none

/-- Python `str()` of an optional cell value (`str(None)` is `"None"`). -/
def pyStrOpt : Option String → String
  | none => "None"
  | some s => s

/-- Function `is_server_mode` from `tilerace.py`: read CompetitionInformation!B1;
`"true"` (trimmed, case-insensitive) means server mode; any read failure is
caught and defaults to server mode. -/
def is_server_mode (read : Except String (Option String)) : Bool :=
  match read with
  | .error _ => true
  | .ok v => pyLower (pyStrip (pyStrOpt v)) == "true"

/-- Outcome of resolving a submit request's routing. -/
inductive RouteResult where
  | notRegistered
  | forbidden
  | pyError
  | ok (e : TeamEntry)
deriving DecidableEq

/-- The mode-and-lookup section of `submit` (`test-GPT.py` lines 337-354,
`tilerace.py` lines 590-604): server mode looks the guild id up and allows
any channel; channel mode looks the invoking channel id up and then insists
the entry's declared channel id equal the invoking channel id
(`.forbidden`, the designated-team-channel rejection).  `.pyError` is the
uncaught exception `int()` would raise on an unparsable matched cell. -/
def resolve_route (modeRead : Except String (Option String)) (guildId channelId : ℕ)
    (teamRows : List (List String)) : RouteResult :=
  if is_server_mode modeRead then
    match get_channel_ids teamRows (toString guildId) with
    | none => .notRegistered
    | some e => .ok e
  else
    match get_channel_ids teamRows (toString channelId) with
    | none => .notRegistered
    | some e =>
        match pyNatParse e.sid with
        | some expected => if channelId ≠ expected then .forbidden else .ok e
        | none => .pyError

/-- A manual `/submit` request as the handler sees it. -/
structure SubmitReq where
  guildId : Option ℕ
  channelId : ℕ
  tile : String
  activity : String
  amount : ℤ
  hasImage : Bool
deriving DecidableEq

/-- The environment of one `submit` call: the sheet reads, whether the
ledger append succeeds, whether the approval channel is reachable, and the
id Discord assigns to the posted approval message. -/
structure SubmitEnv where
  modeRead : Except String (Option String)
  teamRows : List (List String)
  tileActivities : List (String × List String)
  ledgerOk : Bool
  approvalChannelOk : Bool
  postedMessageId : ℕ

/-- The user-visible outcome of one `submit` call. -/
inductive SubmitOutcome where
  | dmRejected
  | notRegistered
  | forbidden
  | pyError
  | invalidTile
  | invalidActivity
  | badAmount
  | noImage
  | storageError
  | noApprovalChannel
  | accepted
deriving DecidableEq

/-- The result of one `submit` call: the outcome, the Pending map
afterwards, the approval messages posted, and the number of ledger rows
written. -/
structure SubmitRes where
  outcome : SubmitOutcome
  pending : List (ℕ × String)
  posted : List ℕ
  ledgerWrites : ℕ
deriving DecidableEq

/-- The manual `submit` command of `test-GPT.py` / `test-noGPT.py`:
DM rejection, routing, input validation, the ledger append (aborting with
the storage error when it fails), the approval-channel post, and the
Pending map entry keyed by the posted message id. -/
def submit (env : SubmitEnv) (pending : List (ℕ × String)) (req : SubmitReq) : SubmitRes :=
  match req.guildId with
  | none => ⟨.dmRejected, pending, [], 0⟩
  | some gid =>
      match resolve_route env.modeRead gid req.channelId env.teamRows with
      | .notRegistered => ⟨.notRegistered, pending, [], 0⟩
      | .forbidden => ⟨.forbidden, pending, [], 0⟩
      | .pyError => ⟨.pyError, pending, [], 0⟩
      | .ok _e =>
          if (env.tileActivities.lookup req.tile).isNone then
            ⟨.invalidTile, pending, [], 0⟩
          else if req.activity ∉ (env.tileActivities.lookup req.tile).getD [] then
            ⟨.invalidActivity, pending, [], 0⟩
          else if req.amount ≤ 0 then ⟨.badAmount, pending, [], 0⟩
          else if ¬req.hasImage then ⟨.noImage, pending, [], 0⟩
          else if ¬env.ledgerOk then ⟨.storageError, pending, [], 0⟩
          else if ¬env.approvalChannelOk then ⟨.noApprovalChannel, pending, [], 1⟩
          else
            let lookupKey :=
              if is_server_mode env.modeRead then toString gid else toString req.channelId
            ⟨.accepted, pending ++ [(env.postedMessageId, lookupKey)],
              [env.postedMessageId], 1⟩

/-- The bot's state as the reaction handler sees it: the Pending map, the
TeamDetails rows, the channels the bot can reach, and the live messages
(with whether each still has an embed). -/
structure BotState where
  pending : List (ℕ × String)
  teamRows : List (List String)
  channels : List ℕ
  messages : List (ℕ × Bool)
deriving DecidableEq

/-- How one reaction event ends. -/
inductive DecideOutcome where
  | botReaction
  | noPending
  | noRoute
  | noChannel
  | notFound
  | noEmbed
  | approved
  | denied
  | otherEmoji
deriving DecidableEq

/-- Delete a message id from the message store. -/
def removeMsg (msgs : List (ℕ × Bool)) (id : ℕ) : List (ℕ × Bool) :=
  msgs.filter (fun p => p.1 ≠ id)

/-- Function `on_raw_reaction_add` from `test-GPT.py` / `test-noGPT.py`: ignore the
bot's own reactions, look the message id up in the Pending map, re-resolve
the routing entry, re-fetch the message (a deleted message raises NotFound,
silently aborting), require an embed, then on the check mark or cross
forward the embed and delete the approval message.  The Pending map is
left untouched on every path. -/
def on_raw_reaction_add (st : BotState) (channelId msgId : ℕ) (emoji : String)
    (isBot : Bool) : DecideOutcome × BotState :=
  if isBot then (.botReaction, st)
  else
    match st.pending.lookup msgId with
    | none => (.noPending, st)
    | some sid =>
        if sid = "" then (.noPending, st)
        else
          match get_channel_ids st.teamRows sid with
          | none => (.noRoute, st)
          | some _e =>
              if channelId ∉ st.channels then (.noChannel, st)
              else
                match st.messages.lookup msgId with
                | none => (.notFound, st)
                | some hasEmbed =>
                    if ¬hasEmbed then (.noEmbed, st)
                    else if emoji = "✅" then
                      (.approved, { st with messages := removeMsg st.messages msgId })
                    else if emoji = "❌" then
                      (.denied, { st with messages := removeMsg st.messages msgId })
                    else (.otherEmoji, st)

/-- The backoff delays of `init_sheets_with_retry`: start at `w`, double
after each sleep, cap at 30. -/
def backoffSeq : ℕ → ℕ → List ℕ
  | 0, _ => []
  | n + 1, w => w :: backoffSeq n (min (w * 2) 30)

/-- What one run of first-boot initialization produced: whether the store
came up, how many attempts ran, and the sleeps taken between attempts. -/
structure InitRes where
  ready : Bool
  attempts : ℕ
  sleeps : List ℕ
deriving DecidableEq

/-- The retry loop of `init_sheets_with_retry`: `r` attempts remain, the
next attempt is numbered `attempt`, the next sleep would last `wait`
seconds.  A failed non-final attempt sleeps `wait` and doubles it (capped
at 30); the final failure gives up. -/
def initLoop (succ : ℕ → Bool) : ℕ → ℕ → ℕ → InitRes
  | 0, _, _ => ⟨false, 0, []⟩
  | r + 1, attempt, wait =>
      if succ attempt then ⟨true, 1, []⟩
      else if r = 0 then ⟨false, 1, []⟩
      else
        let rest := initLoop succ r (attempt + 1) (min (wait * 2) 30)
        ⟨rest.ready, rest.attempts + 1, wait :: rest.sleeps⟩

/-- Function `init_sheets_with_retry` from `tilerace.py` (default `max_tries = 5`),
with the fallible sheet connection modelled by `succ attempt`. -/
def init_sheets_with_retry (succ : ℕ → Bool) (maxTries : ℕ) : InitRes :=
  initLoop succ maxTries 1 2

/-- What a command does before any work, per `sheets_ready()`. -/
inductive CommandGate where
  | stillStarting
  | proceed
deriving DecidableEq

/-- Every command path of `tilerace.py` checks `sheets_ready()` and rejects
with the "still starting" reply while the store is not ready. -/
def command_gate (ready : Bool) : CommandGate :=
  if ready then .proceed else .stillStarting

/-- The best-entry component of one matcher step on a pair. -/
def bStep (sc : String → String → ℚ) (th : ℚ) (ob : Option BestEntry)
    (p : String × Cand) : Option BestEntry :=
  if th ≤ pairScore sc p then
    match ob with
    | none => some (pairBest sc p)
    | some b => if b.score < pairScore sc p then some (pairBest sc p) else some b
  else ob

/-- The debug-row component of one matcher step on a pair. -/
def dStep (sc : String → String → ℚ) (d : List DebugRow) (p : String × Cand) :
    List DebugRow :=
  if (60 : ℚ) ≤ pairScore sc p then d ++ [pairRow sc p] else d

/-- The best-entry accumulation of the matcher over an (already accepted)
pair list: the first pair strictly beating the running best wins. -/
def bestFold (sc : String → String → ℚ) (b0 : Option BestEntry) :
    List (String × Cand) → Option BestEntry
  | [] => b0
  | p :: rest =>
      bestFold sc
        (match b0 with
          | none => some (pairBest sc p)
          | some b => if b.score < pairScore sc p then some (pairBest sc p) else some b)
        rest

/-- A concrete submit environment whose ledger append fails: server mode,
one registered guild `5`, one tile `T1` with activity `A`. -/
def sampleEnvFail : SubmitEnv :=
  ⟨Except.ok (some "true"), [["hdr"], ["Team", "5", "1", "2", "3"]],
    [("T1", ["A"])], false, true, 99⟩

/-- A concrete valid manual submission from guild 5, channel 7. -/
def sampleReq : SubmitReq :=
  ⟨some 5, 7, "T1", "A", 3, true⟩

/-- A concrete bot state: one pending approval message `10` from source
`"7"`, a matching TeamDetails row, the message still live with an embed in
channel `5`. -/
def sampleBotState : BotState :=
  ⟨[(10, "7")], [["T", "id", "a", "b", "c"], ["Team", "7", "1", "2", "3"]],
    [5], [(10, true)]⟩

/-- Decimal digit characters of a natural number, most significant digit
first: the list `Nat.repr` (hence `toString` on ℕ) produces, restated by
structural recursion on the value for reasoning. -/
def decDigits (n : ℕ) : List Char :=
  if _h : n < 10 then [Nat.digitChar n]
  else decDigits (n / 10) ++ [Nat.digitChar (n % 10)]
termination_by n
decreasing_by exact Nat.div_lt_self (by omega) (by omega)

/-! ### Properties -/

theorem ratioGe_iff (t : ℕ) (a b : List Char) :
    ratioGe t a b = true ↔ (t : ℚ) ≤ fuzzRatio a b := by
  unfold ratioGe fuzzRatio
  by_cases h : a.length + b.length = 0
  · simp only [h, if_true, decide_eq_true_eq]
    constructor
    · intro ht; exact_mod_cast ht
    · intro ht; exact_mod_cast ht
  · have hp : (0 : ℚ) < ((a.length : ℚ) + (b.length : ℚ)) := by
      have := Nat.pos_of_ne_zero h
      exact_mod_cast this
    simp only [h, if_false, decide_eq_true_eq]
    rw [le_div_iff₀ hp]
    constructor
    · intro ht; exact_mod_cast ht
    · intro ht; exact_mod_cast ht

/-- C6: the name reconciler returns false when either name is empty after
normalisation, true on exact normalised equality, and otherwise accepts
exactly when the character-level similarity ratio reaches the threshold;
in particular Zezima/zezima and Zezima/Zezimaa match at the default
threshold 90 and Zezima/Woox does not. -/
theorem C6_names_match_spec :
    (∀ a b t, (normNameCompare a = "" ∨ normNameCompare b = "") →
        names_match a b t = false) ∧
    (∀ a b t, normNameCompare a = normNameCompare b → normNameCompare a ≠ "" →
        names_match a b t = true) ∧
    (∀ a b t, normNameCompare a ≠ "" → normNameCompare b ≠ "" →
        normNameCompare a ≠ normNameCompare b →
        (names_match a b t = true ↔
          (t : ℚ) ≤ fuzzRatio (normNameCompare a).data (normNameCompare b).data)) ∧
    names_match "Zezima" "zezima" 90 = true ∧
    names_match "Zezima" "Zezimaa" 90 = true ∧
    names_match "Zezima" "Woox" 90 = false := by
  refine ⟨?_, ?_, ?_, by decide, by decide, by decide⟩
  · intro a b t h
    unfold names_match
    rcases h with h | h <;> simp [h]
  · intro a b t heq hne
    have hb : normNameCompare b ≠ "" := by rw [← heq]; exact hne
    unfold names_match
    simp [heq, hne, hb]
  · intro a b t ha hb hne
    unfold names_match
    simp [ha, hb, hne, ratioGe_iff]

/-- C10: a failed read of the mode cell makes `is_server_mode` return true
(server mode) instead of raising, so a routing resolution performed during
a configuration outage behaves exactly as in a server-mode deployment,
whatever mode the deployment intended. -/
theorem C10_mode_read_failure_defaults_to_server :
    (∀ e, is_server_mode (Except.error e) = true) ∧
    (∀ e gid cid table,
        resolve_route (Except.error e) gid cid table =
          resolve_route (Except.ok (some "true")) gid cid table) := by
  constructor
  · intro e; rfl
  · intro e gid cid table
    unfold resolve_route
    have h1 : is_server_mode (Except.error e) = true := rfl
    have h2 : is_server_mode (Except.ok (some "true")) = true := by decide
    rw [h1, h2]

theorem decDigits_lt (n : ℕ) (h : n < 10) : decDigits n = [Nat.digitChar n] := by
  conv_lhs => rw [decDigits]
  rw [dif_pos h]

theorem decDigits_ge (n : ℕ) (h : ¬ n < 10) :
    decDigits n = decDigits (n / 10) ++ [Nat.digitChar (n % 10)] := by
  conv_lhs => rw [decDigits]
  rw [dif_neg h]

theorem digitChar_digit (k : ℕ) (hk : k < 10) :
    (Nat.digitChar k).isDigit = true ∧ isPySpace (Nat.digitChar k) = false ∧
      (Nat.digitChar k).toNat - '0'.toNat = k := by
  interval_cases k <;> exact ⟨by decide, by decide, by decide⟩

theorem decDigits_ne_nil (n : ℕ) : decDigits n ≠ [] := by
  by_cases h : n < 10
  · rw [decDigits_lt n h]; simp
  · rw [decDigits_ge n h]; simp

theorem decDigits_mem (n : ℕ) :
    ∀ c ∈ decDigits n, c.isDigit = true ∧ isPySpace c = false := by
  induction n using Nat.strong_induction_on with
  | _ n ih =>
      by_cases h : n < 10
      · rw [decDigits_lt n h]
        intro c hc
        rw [List.mem_singleton] at hc
        subst hc
        exact ⟨(digitChar_digit n h).1, (digitChar_digit n h).2.1⟩
      · rw [decDigits_ge n h]
        intro c hc
        rcases List.mem_append.mp hc with hc | hc
        · exact ih (n / 10) (Nat.div_lt_self (by omega) (by omega)) c hc
        · rw [List.mem_singleton] at hc
          subst hc
          have hm : n % 10 < 10 := Nat.mod_lt _ (by omega)
          exact ⟨(digitChar_digit _ hm).1, (digitChar_digit _ hm).2.1⟩

theorem decDigits_foldl (n : ℕ) :
    ∀ a : ℕ, (decDigits n).foldl (fun acc c => acc * 10 + (c.toNat - '0'.toNat)) a =
      a * 10 ^ (decDigits n).length + n := by
  induction n using Nat.strong_induction_on with
  | _ n ih =>
      intro a
      by_cases h : n < 10
      · rw [decDigits_lt n h]
        simp only [List.foldl_cons, List.foldl_nil, List.length_singleton, pow_one]
        rw [(digitChar_digit n h).2.2]
      · rw [decDigits_ge n h, List.foldl_append,
          ih (n / 10) (Nat.div_lt_self (by omega) (by omega)) a]
        have hm : n % 10 < 10 := Nat.mod_lt _ (by omega)
        simp only [List.foldl_cons, List.foldl_nil, List.length_append,
          List.length_singleton]
        rw [(digitChar_digit _ hm).2.2]
        have hdm : n / 10 * 10 + n % 10 = n := by omega
        calc (a * 10 ^ (decDigits (n / 10)).length + n / 10) * 10 + n % 10
            = a * (10 ^ (decDigits (n / 10)).length * 10) + (n / 10 * 10 + n % 10) := by
              ring
          _ = a * 10 ^ ((decDigits (n / 10)).length + 1) + n := by rw [hdm, pow_succ]

theorem toDigitsCore_eq (fuel : ℕ) :
    ∀ (n : ℕ) (ds : List Char), n < fuel →
      Nat.toDigitsCore 10 fuel n ds = decDigits n ++ ds := by
  induction fuel with
  | zero => intro n ds h; omega
  | succ fuel ih =>
      intro n ds h
      have hstep : Nat.toDigitsCore 10 (fuel + 1) n ds =
          if n / 10 = 0 then Nat.digitChar (n % 10) :: ds
          else Nat.toDigitsCore 10 fuel (n / 10) (Nat.digitChar (n % 10) :: ds) := rfl
      rw [hstep]
      by_cases h10 : n / 10 = 0
      · rw [if_pos h10]
        have hn : n < 10 := by omega
        rw [decDigits_lt n hn, Nat.mod_eq_of_lt hn]
        rfl
      · rw [if_neg h10]
        have hlt : n / 10 < fuel := by omega
        rw [ih (n / 10) (Nat.digitChar (n % 10) :: ds) hlt,
          decDigits_ge n (by omega), List.append_assoc]
        rfl

theorem toString_nat_data (n : ℕ) : (toString n).data = decDigits n := by
  show (Nat.toDigits 10 n).asString.data = decDigits n
  unfold Nat.toDigits
  rw [toDigitsCore_eq (n + 1) n [] (by omega)]
  simp [List.asString]

theorem dropWhile_of_no_space (m : List Char)
    (hm : ∀ c ∈ m, isPySpace c = false) : m.dropWhile isPySpace = m := by
  cases m with
  | nil => rfl
  | cons c rest =>
      rw [List.dropWhile_cons, if_neg]
      simp [hm c (List.mem_cons_self c rest)]

theorem pyStripL_no_space (l : List Char) (h : ∀ c ∈ l, isPySpace c = false) :
    pyStripL l = l := by
  unfold pyStripL dropEndWhile
  rw [dropWhile_of_no_space l h,
    dropWhile_of_no_space l.reverse (fun c hc => h c (List.mem_reverse.mp hc)),
    List.reverse_reverse]

theorem pyNatParse_toString (n : ℕ) : pyNatParse (toString n) = some n := by
  simp only [pyNatParse]
  rw [toString_nat_data n, pyStripL_no_space _ (fun c hc => (decDigits_mem n c hc).2)]
  rw [if_pos ⟨decDigits_ne_nil n,
    List.all_eq_true.mpr (fun c hc => (decDigits_mem n c hc).1)⟩]
  rw [decDigits_foldl n 0]
  simp

theorem get_channel_ids_sid (rows : List (List String)) (k : String) (e : TeamEntry)
    (h : get_channel_ids rows k = some e) : e.sid = k := by
  rcases hfind : (rows.drop 1).find? (fun row =>
      decide (5 ≤ row.length) && (row.getD 1 "" == k)) with _ | row
  · simp only [get_channel_ids, hfind] at h
    exact Option.noConfusion h
  · simp only [get_channel_ids, hfind] at h
    have hp := List.find?_some hfind
    simp only [Bool.and_eq_true] at hp
    have hkey : row.getD 1 "" = k := eq_of_beq hp.2
    rcases hA : pyNatParse (row.getD 2 "") with _ | a <;>
      rcases hB : pyNatParse (row.getD 3 "") with _ | b <;>
        rcases hC : pyNatParse (row.getD 4 "") with _ | c <;>
          simp only [hA, hB, hC] at h
    all_goals try exact Option.noConfusion h
    have hs := congrArg TeamEntry.sid (Option.some.inj h)
    rw [← hs]
    exact hkey

theorem resolve_route_channel_matched (table : List (List String)) (gid cid : ℕ)
    (e : TeamEntry) (hlook : get_channel_ids table (toString cid) = some e) :
    resolve_route (Except.ok (some "false")) gid cid table = .ok e := by
  have hm : is_server_mode (Except.ok (some "false")) = false := by decide
  unfold resolve_route
  rw [hm]
  simp only [Bool.false_eq_true, if_false, hlook]
  rw [get_channel_ids_sid table (toString cid) e hlook]
  simp only [pyNatParse_toString]
  simp

theorem resolve_route_channel_unmatched (table : List (List String)) (gid cid : ℕ)
    (hlook : get_channel_ids table (toString cid) = none) :
    resolve_route (Except.ok (some "false")) gid cid table = .notRegistered := by
  have hm : is_server_mode (Except.ok (some "false")) = false := by decide
  unfold resolve_route
  rw [hm]
  simp only [Bool.false_eq_true, if_false, hlook]

theorem resolve_route_channel_no_forbidden (table : List (List String)) (gid cid : ℕ) :
    resolve_route (Except.ok (some "false")) gid cid table ≠ .forbidden := by
  rcases hlook : get_channel_ids table (toString cid) with _ | e
  · rw [resolve_route_channel_unmatched table gid cid hlook]
    exact fun hc => RouteResult.noConfusion hc
  · rw [resolve_route_channel_matched table gid cid e hlook]
    exact fun hc => RouteResult.noConfusion hc

/-- C3 (amended): the claimed designated-team-channel rejection is dead
code.  In channel mode the lookup key is the invoking channel id's decimal
string and a matched entry's declared channel id is that very cell, so it
parses back to the invoking id: a matched lookup always resolves
successfully and Forbidden is never produced; a submit from a channel
other than the registered one instead fails the lookup and is rejected as
NotRegistered, an outcome distinct from Forbidden.  The server-mode half
of the claim stands: a registered guild resolves successfully from any of
its channels. -/
theorem C3_routing_amended :
    (∀ table (gid cid : ℕ) e,
        get_channel_ids table (toString cid) = some e →
        resolve_route (Except.ok (some "false")) gid cid table = .ok e) ∧
    (∀ table (gid cid : ℕ),
        resolve_route (Except.ok (some "false")) gid cid table ≠ .forbidden) ∧
    (∀ table (gid cid : ℕ),
        get_channel_ids table (toString cid) = none →
        resolve_route (Except.ok (some "false")) gid cid table = .notRegistered) ∧
    (RouteResult.forbidden ≠ RouteResult.notRegistered) ∧
    (∀ table (gid cid : ℕ) e,
        get_channel_ids table (toString gid) = some e →
        resolve_route (Except.ok (some "true")) gid cid table = .ok e) := by
  refine ⟨fun table gid cid e h => resolve_route_channel_matched table gid cid e h,
    fun table gid cid => resolve_route_channel_no_forbidden table gid cid,
    fun table gid cid h => resolve_route_channel_unmatched table gid cid h,
    by decide, ?_⟩
  intro table gid cid e hlook
  have hm : is_server_mode (Except.ok (some "true")) = true := by decide
  unfold resolve_route
  rw [hm]
  simp [hlook]

/-- C3 counterexample to the claim as stated: with one routing entry
registering channel 200, a channel-mode submit invoked from channel 100, a
channel other than the registered one, is rejected as NotRegistered, not
with the claimed designated-team-channel Forbidden rejection. -/
theorem C3_counterexample :
    resolve_route (Except.ok (some "false")) 1 100
        [["hdr"], ["Team", "200", "11", "22", "33"]] = .notRegistered ∧
    resolve_route (Except.ok (some "false")) 1 100
        [["hdr"], ["Team", "200", "11", "22", "33"]] ≠ .forbidden := by
  decide

theorem initLoop_all_fail (succ : ℕ → Bool) (h : ∀ k, succ k = false) :
    ∀ r attempt wait, initLoop succ r attempt wait = ⟨false, r, backoffSeq (r - 1) wait⟩ := by
  intro r
  induction r with
  | zero => intro attempt wait; rfl
  | succ r ih =>
      intro attempt wait
      unfold initLoop
      rw [h attempt]
      by_cases hr : r = 0
      · subst hr; simp [backoffSeq]
      · simp only [if_neg hr, Bool.false_eq_true, if_false]
        rw [ih (attempt + 1) (min (wait * 2) 30)]
        rcases Nat.exists_eq_succ_of_ne_zero hr with ⟨r', rfl⟩
        simp [backoffSeq]

theorem backoffSeq_le_30 : ∀ n w, w ≤ 30 → ∀ s ∈ backoffSeq n w, s ≤ 30 := by
  intro n
  induction n with
  | zero => intro w _ s hs; simp [backoffSeq] at hs
  | succ n ih =>
      intro w hw s hs
      simp only [backoffSeq, List.mem_cons] at hs
      rcases hs with rfl | hs
      · exact hw
      · exact ih _ (Nat.min_le_right _ _) s hs

/-- C9: with every connection attempt failing, first-boot initialization
runs exactly `maxTries` attempts, sleeping between attempts with delays
that start at 2 seconds, double each time and are capped at 30 seconds,
then gives up leaving the store not ready, in which state the command gate
rejects with the "still starting" response. -/
theorem C9_init_retry_gives_up :
    (∀ (maxTries : ℕ) (succ : ℕ → Bool), (∀ k, succ k = false) →
        init_sheets_with_retry succ maxTries =
          ⟨false, maxTries, backoffSeq (maxTries - 1) 2⟩ ∧
        command_gate (init_sheets_with_retry succ maxTries).ready =
          .stillStarting) ∧
    (∀ n, ∀ s ∈ backoffSeq n 2, s ≤ 30) ∧
    init_sheets_with_retry (fun _ => false) 5 = ⟨false, 5, [2, 4, 8, 16]⟩ := by
  refine ⟨?_, ?_, by decide⟩
  · intro maxTries succ h
    have heq := initLoop_all_fail succ h maxTries 1 2
    refine ⟨heq, ?_⟩
    unfold init_sheets_with_retry at heq ⊢
    rw [heq]
    rfl
  · intro n
    exact backoffSeq_le_30 n 2 (by norm_num)

/-- C2: when the ledger append of a valid manual submission fails, `submit`
aborts with the storage error: the Pending map is unchanged, no approval
message is posted, and no ledger row is written. -/
theorem C2_create_storage_failure :
    ∀ (env : SubmitEnv) (pending : List (ℕ × String)) (req : SubmitReq)
      (gid : ℕ) (e : TeamEntry) (acts : List String),
      req.guildId = some gid →
      resolve_route env.modeRead gid req.channelId env.teamRows = .ok e →
      env.tileActivities.lookup req.tile = some acts →
      req.activity ∈ acts →
      0 < req.amount →
      req.hasImage = true →
      env.ledgerOk = false →
      submit env pending req = ⟨.storageError, pending, [], 0⟩ := by
  intro env pending req gid e acts hg hroute hlook hact hamt himg hledger
  simp [submit, hg, hroute, hlook, hact, himg, hledger, not_le.mpr hamt]

theorem C2_witness :
    submit sampleEnvFail [] sampleReq = ⟨.storageError, [], [], 0⟩ :=
  C2_create_storage_failure sampleEnvFail [] sampleReq 5 ⟨"5", 1, 2, 3⟩ ["A"]
    rfl (by decide) (by decide) (by decide) (by decide) rfl rfl

theorem removeMsg_lookup_self (msgs : List (ℕ × Bool)) (mid : ℕ) :
    (removeMsg msgs mid).lookup mid = none := by
  induction msgs with
  | nil => rfl
  | cons p rest ih =>
      rcases p with ⟨k, v⟩
      unfold removeMsg at ih ⊢
      rw [List.filter_cons]
      by_cases hp : k = mid
      · subst hp
        rw [if_neg (by simp)]
        exact ih
      · rw [if_pos (by simp [hp])]
        have hbeq : (mid == k) = false := by
          simp [beq_iff_eq]
          exact Ne.symm hp
        simp only [List.lookup, hbeq]
        exact ih

/-- C1 (counterexample to the claim as stated): on a concrete state, a
decision returns Approved yet the Pending map entry for the decided message
id is still present afterwards — the entry is not removed on a terminal
outcome. -/
theorem C1_counterexample :
    (on_raw_reaction_add sampleBotState 5 10 "✅" false).1 = .approved ∧
    (on_raw_reaction_add sampleBotState 5 10 "✅" false).2.pending.lookup 10 =
      some "7" := by decide

/-- C1 (amended): once a decision returns Approved or Denied, a second
decision on the same approval-message id returns NotFound (the deleted
message fails to fetch and the handler silently aborts), but the in-memory
Pending map entry is retained, not removed. -/
theorem C1_second_decide_not_found :
    ∀ (st : BotState) (ch mid : ℕ) (em em' : String),
      ((on_raw_reaction_add st ch mid em false).1 = .approved ∨
       (on_raw_reaction_add st ch mid em false).1 = .denied) →
      (on_raw_reaction_add st ch mid em false).2.pending = st.pending ∧
      (on_raw_reaction_add (on_raw_reaction_add st ch mid em false).2
          ch mid em' false).1 = .notFound := by
  intro st ch mid em em' hterm
  rcases hpend : st.pending.lookup mid with _ | sid
  · simp [on_raw_reaction_add, hpend] at hterm
  · by_cases hsid : sid = ""
    · simp [on_raw_reaction_add, hpend, hsid] at hterm
    · rcases hroute : get_channel_ids st.teamRows sid with _ | e
      · simp [on_raw_reaction_add, hpend, hsid, hroute] at hterm
      · by_cases hch : ch ∈ st.channels
        · rcases hmsg : st.messages.lookup mid with _ | hasEmbed
          · simp [on_raw_reaction_add, hpend, hsid, hroute, hch, hmsg] at hterm
          · cases hasEmbed with
            | false =>
                simp [on_raw_reaction_add, hpend, hsid, hroute, hch, hmsg] at hterm
            | true =>
                by_cases h1 : em = "✅"
                · have hfirst : (on_raw_reaction_add st ch mid em false).2 =
                      { st with messages := removeMsg st.messages mid } := by
                    simp [on_raw_reaction_add, hpend, hsid, hroute, hch, hmsg, h1]
                  constructor
                  · rw [hfirst]
                  · rw [hfirst]
                    simp [on_raw_reaction_add, hpend, hsid, hroute, hch,
                      removeMsg_lookup_self]
                · by_cases h2 : em = "❌"
                  · have hfirst : (on_raw_reaction_add st ch mid em false).2 =
                        { st with messages := removeMsg st.messages mid } := by
                      simp [on_raw_reaction_add, hpend, hsid, hroute, hch, hmsg,
                        h1, h2]
                    constructor
                    · rw [hfirst]
                    · rw [hfirst]
                      simp [on_raw_reaction_add, hpend, hsid, hroute, hch,
                        removeMsg_lookup_self]
                  · simp [on_raw_reaction_add, hpend, hsid, hroute, hch, hmsg,
                      h1, h2] at hterm
        · simp [on_raw_reaction_add, hpend, hsid, hroute, hch] at hterm

theorem C1_witness :
    (on_raw_reaction_add sampleBotState 5 10 "✅" false).2.pending =
      sampleBotState.pending ∧
    (on_raw_reaction_add (on_raw_reaction_add sampleBotState 5 10 "✅" false).2
        5 10 "✅" false).1 = .notFound :=
  C1_second_decide_not_found sampleBotState 5 10 "✅" "✅" (Or.inl (by decide))

/-- C8: the fuzzy matcher is a deterministic function of its inputs — two
runs on the same detected set, taxonomy and threshold return the same
(tile, item) result and the same debug trace. -/
theorem C8_match_deterministic :
    ∀ (sc : String → String → ℚ) (d₁ d₂ : List String)
      (ta₁ ta₂ : List (String × List String)) (th₁ th₂ : ℚ),
      d₁ = d₂ → ta₁ = ta₂ → th₁ = th₂ →
      best_match_tile_activity sc d₁ ta₁ th₁ =
        best_match_tile_activity sc d₂ ta₂ th₂ := by
  intro sc d₁ d₂ ta₁ ta₂ th₁ th₂ h1 h2 h3
  subst h1; subst h2; subst h3; rfl

theorem C8_witness :
    best_match_tile_activity (fun d l => if d = l then 100 else 0) ["zulrah"]
        [("Zulrah", ["Tanzanite Fang"])] 88 =
      best_match_tile_activity (fun d l => if d = l then 100 else 0) ["zulrah"]
        [("Zulrah", ["Tanzanite Fang"])] 88 :=
  C8_match_deterministic _ ["zulrah"] ["zulrah"]
    [("Zulrah", ["Tanzanite Fang"])] [("Zulrah", ["Tanzanite Fang"])] 88 88
    rfl rfl rfl

theorem matchStep_pair (sc : String → String → ℚ) (th : ℚ)
    (b0 : Option BestEntry) (d0 : List DebugRow) (p : String × Cand) :
    matchStep sc th (b0, d0) p.1 p.2 = (bStep sc th b0 p, dStep sc d0 p) := by
  simp only [matchStep, bStep, dStep, pairScore, pairRow, pairBest]

theorem foldPairs_eq (sc : String → String → ℚ) (th : ℚ) :
    ∀ (ps : List (String × Cand)) (b0 : Option BestEntry) (d0 : List DebugRow),
      ps.foldl (fun st p => matchStep sc th st p.1 p.2) (b0, d0) =
        (ps.foldl (bStep sc th) b0, ps.foldl (dStep sc) d0) := by
  intro ps
  induction ps with
  | nil => intro b0 d0; rfl
  | cons p rest ih =>
      intro b0 d0
      rw [List.foldl_cons, List.foldl_cons, List.foldl_cons, matchStep_pair]
      exact ih _ _

theorem scanPairs_flat (sc : String → String → ℚ) (th : ℚ)
    (expanded : List String) (cands : List Cand) :
    scanPairs sc th expanded cands =
      (expanded.flatMap (fun d => cands.map (fun c => (d, c)))).foldl
        (fun st p => matchStep sc th st p.1 p.2) (none, []) := by
  unfold scanPairs
  generalize (none, ([] : List DebugRow)) = init
  induction expanded generalizing init with
  | nil => rfl
  | cons d rest ih =>
      rw [List.foldl_cons, List.flatMap_cons, List.foldl_append, List.foldl_map]
      exact ih _

theorem dFold_filterMap (sc : String → String → ℚ) :
    ∀ (ps : List (String × Cand)) (d0 : List DebugRow),
      ps.foldl (dStep sc) d0 =
        d0 ++ ps.filterMap (fun p =>
          if (60 : ℚ) ≤ pairScore sc p then some (pairRow sc p) else none) := by
  intro ps
  induction ps with
  | nil => intro d0; simp
  | cons p rest ih =>
      intro d0
      rw [List.foldl_cons, List.filterMap_cons]
      by_cases h : (60 : ℚ) ≤ pairScore sc p
      · have hstep : dStep sc d0 p = d0 ++ [pairRow sc p] := by
          unfold dStep; rw [if_pos h]
        rw [hstep, ih]
        simp [h]
      · have hstep : dStep sc d0 p = d0 := by
          unfold dStep; rw [if_neg h]
        rw [hstep, ih, if_neg h]

theorem bFold_filter (sc : String → String → ℚ) (th : ℚ) :
    ∀ (ps : List (String × Cand)) (b0 : Option BestEntry),
      ps.foldl (bStep sc th) b0 =
        bestFold sc b0 (ps.filter (fun q => decide (th ≤ pairScore sc q))) := by
  intro ps
  induction ps with
  | nil => intro b0; rfl
  | cons p rest ih =>
      intro b0
      rw [List.foldl_cons, List.filter_cons]
      by_cases h : th ≤ pairScore sc p
      · rw [if_pos (by simpa using h)]
        have hstep : bStep sc th b0 p =
            (match b0 with
              | none => some (pairBest sc p)
              | some b =>
                  if b.score < pairScore sc p then some (pairBest sc p) else some b) := by
          unfold bStep; rw [if_pos h]
        rw [hstep, ih]
        rfl
      · rw [if_neg (by simpa using h)]
        have hstep : bStep sc th b0 p = b0 := by
          unfold bStep; rw [if_neg h]
        rw [hstep]
        exact ih _

theorem bestFold_some_ne_none (sc : String → String → ℚ) :
    ∀ (acc : List (String × Cand)) (b : BestEntry),
      bestFold sc (some b) acc ≠ none := by
  intro acc
  induction acc with
  | nil => intro b h; exact Option.noConfusion h
  | cons p rest ih =>
      intro b
      unfold bestFold
      dsimp only
      by_cases h : b.score < pairScore sc p
      · rw [if_pos h]; exact ih _
      · rw [if_neg h]; exact ih _

theorem bestFold_none_iff (sc : String → String → ℚ) :
    ∀ (acc : List (String × Cand)) (b0 : Option BestEntry),
      (bestFold sc b0 acc = none ↔ b0 = none ∧ acc = []) := by
  intro acc
  induction acc with
  | nil => intro b0; simp [bestFold]
  | cons p rest ih =>
      intro b0
      constructor
      · intro h
        exfalso
        cases b0 with
        | none => exact bestFold_some_ne_none sc rest (pairBest sc p) h
        | some b =>
            unfold bestFold at h
            dsimp only at h
            by_cases hlt : b.score < pairScore sc p
            · rw [if_pos hlt] at h
              exact bestFold_some_ne_none sc rest _ h
            · rw [if_neg hlt] at h
              exact bestFold_some_ne_none sc rest _ h
      · rintro ⟨_, h⟩
        exact List.noConfusion h

theorem bestFold_some_char (sc : String → String → ℚ) :
    ∀ (acc : List (String × Cand)) (b0 : Option BestEntry) (b : BestEntry),
      bestFold sc b0 acc = some b →
      (b0 = some b ∧ ∀ q ∈ acc, pairScore sc q ≤ b.score) ∨
      (∃ l₁ p l₂, acc = l₁ ++ p :: l₂ ∧ b = pairBest sc p ∧
        (∀ q ∈ l₁, pairScore sc q < b.score) ∧
        (∀ q ∈ l₂, pairScore sc q ≤ b.score) ∧
        (∀ b0', b0 = some b0' → b0'.score < b.score)) := by
  intro acc
  induction acc with
  | nil =>
      intro b0 b h
      left
      exact ⟨h, by simp⟩
  | cons p rest ih =>
      intro b0 b h
      cases b0 with
      | none =>
          have h' : bestFold sc (some (pairBest sc p)) rest = some b := h
          rcases ih _ b h' with ⟨heq, hall⟩ | ⟨l₁, q, l₂, hsplit, hb, hl₁, hl₂, hprev⟩
          · right
            refine ⟨[], p, rest, by simp, (Option.some.inj heq).symm, by simp, hall, ?_⟩
            intro b0' hh
            exact Option.noConfusion hh
          · right
            refine ⟨p :: l₁, q, l₂, by simp [hsplit], hb, ?_, hl₂, ?_⟩
            · intro r hr
              rcases List.mem_cons.mp hr with rfl | hr
              · exact hprev (pairBest sc r) rfl
              · exact hl₁ r hr
            · intro b0' hh
              exact Option.noConfusion hh
      | some b0' =>
          by_cases hlt : b0'.score < pairScore sc p
          · have h' : bestFold sc (some (pairBest sc p)) rest = some b := by
              unfold bestFold at h
              dsimp only at h
              rwa [if_pos hlt] at h
            rcases ih _ b h' with ⟨heq, hall⟩ | ⟨l₁, q, l₂, hsplit, hb, hl₁, hl₂, hprev⟩
            · right
              have hbp : b = pairBest sc p := (Option.some.inj heq).symm
              refine ⟨[], p, rest, by simp, hbp, by simp, hall, ?_⟩
              intro b0'' hh
              cases hh
              rw [hbp]
              exact hlt
            · right
              refine ⟨p :: l₁, q, l₂, by simp [hsplit], hb, ?_, hl₂, ?_⟩
              · intro r hr
                rcases List.mem_cons.mp hr with rfl | hr
                · exact hprev (pairBest sc r) rfl
                · exact hl₁ r hr
              · intro b0'' hh
                cases hh
                exact lt_trans hlt (hprev (pairBest sc p) rfl)
          · have h' : bestFold sc (some b0') rest = some b := by
              unfold bestFold at h
              dsimp only at h
              rwa [if_neg hlt] at h
            rcases ih _ b h' with ⟨heq, hall⟩ | ⟨l₁, q, l₂, hsplit, hb, hl₁, hl₂, hprev⟩
            · left
              refine ⟨heq, ?_⟩
              intro r hr
              rcases List.mem_cons.mp hr with rfl | hr
              · have hb0 : b0' = b := Option.some.inj heq
                rw [← hb0]
                exact not_lt.mp hlt
              · exact hall r hr
            · right
              refine ⟨p :: l₁, q, l₂, by simp [hsplit], hb, ?_, hl₂, ?_⟩
              · intro r hr
                rcases List.mem_cons.mp hr with rfl | hr
                · exact lt_of_le_of_lt (not_lt.mp hlt) (hprev b0' rfl)
                · exact hl₁ r hr
              · intro b0'' hh
                cases hh
                exact hprev b0' rfl

theorem insDesc_mem (r : DebugRow) :
    ∀ (l : List DebugRow) (a : DebugRow), a ∈ insDesc r l ↔ a = r ∨ a ∈ l := by
  intro l
  induction l with
  | nil => intro a; simp [insDesc]
  | cons x xs ih =>
      intro a
      unfold insDesc
      by_cases h : r.score ≤ x.score
      · rw [if_pos h]
        simp only [List.mem_cons, ih]
        tauto
      · rw [if_neg h]
        simp only [List.mem_cons]

theorem insDesc_sorted (r : DebugRow) :
    ∀ (l : List DebugRow), l.Pairwise (fun a b => b.score ≤ a.score) →
      (insDesc r l).Pairwise (fun a b => b.score ≤ a.score) := by
  intro l
  induction l with
  | nil => intro _; simp [insDesc]
  | cons x xs ih =>
      intro hp
      rw [List.pairwise_cons] at hp
      obtain ⟨hx, hxs⟩ := hp
      unfold insDesc
      by_cases h : r.score ≤ x.score
      · rw [if_pos h, List.pairwise_cons]
        refine ⟨?_, ih hxs⟩
        intro y hy
        rcases (insDesc_mem r xs y).mp hy with rfl | hy
        · exact h
        · exact hx y hy
      · rw [if_neg h, List.pairwise_cons]
        refine ⟨?_, ?_⟩
        · intro y hy
          rcases List.mem_cons.mp hy with rfl | hy
          · exact le_of_lt (not_le.mp h)
          · exact le_trans (hx y hy) (le_of_lt (not_le.mp h))
        · rw [List.pairwise_cons]
          exact ⟨hx, hxs⟩

theorem sortDesc_sorted (l : List DebugRow) :
    (sortDesc l).Pairwise (fun a b => b.score ≤ a.score) := by
  have haux : ∀ (l acc : List DebugRow),
      acc.Pairwise (fun a b => b.score ≤ a.score) →
      (l.foldl (fun acc r => insDesc r acc) acc).Pairwise
        (fun a b => b.score ≤ a.score) := by
    intro l
    induction l with
    | nil => intro acc h; exact h
    | cons r rest ih => intro acc h; exact ih _ (insDesc_sorted r acc h)
  exact haux l [] (by simp)

theorem sortDesc_mem (l : List DebugRow) (a : DebugRow) :
    a ∈ sortDesc l ↔ a ∈ l := by
  have haux : ∀ (l acc : List DebugRow) (a : DebugRow),
      a ∈ l.foldl (fun acc r => insDesc r acc) acc ↔ a ∈ acc ∨ a ∈ l := by
    intro l
    induction l with
    | nil => intro acc a; simp
    | cons r rest ih =>
        intro acc a
        rw [List.foldl_cons, ih, insDesc_mem]
        simp only [List.mem_cons]
        tauto
  unfold sortDesc
  rw [haux]
  simp

theorem scanPairs_fst (sc : String → String → ℚ) (th : ℚ)
    (detected : List String) (ta : List (String × List String)) :
    (scanPairs sc th (expandDetected detected) (mkCandidates ta)).1 =
      bestFold sc none (acceptedPairs sc th detected ta) := by
  rw [scanPairs_flat, foldPairs_eq, bFold_filter]
  rfl

theorem scanPairs_snd (sc : String → String → ℚ) (th : ℚ)
    (detected : List String) (ta : List (String × List String)) :
    (scanPairs sc th (expandDetected detected) (mkCandidates ta)).2 =
      (allPairs detected ta).filterMap (fun p =>
        if (60 : ℚ) ≤ pairScore sc p then some (pairRow sc p) else none) := by
  rw [scanPairs_flat, foldPairs_eq, dFold_filterMap]
  rfl

theorem bm_fst_none_iff (sc : String → String → ℚ) (detected : List String)
    (ta : List (String × List String)) (th : ℚ) :
    ((best_match_tile_activity sc detected ta th).1 = none ↔
      acceptedPairs sc th detected ta = []) := by
  simp only [best_match_tile_activity]
  rw [scanPairs_fst]
  rcases hacc : bestFold sc none (acceptedPairs sc th detected ta) with _ | b
  · constructor
    · intro _
      exact ((bestFold_none_iff sc _ none).mp hacc).2
    · intro _
      rfl
  · constructor
    · intro h
      exact Option.noConfusion h
    · intro h
      rw [h] at hacc
      exact Option.noConfusion hacc

theorem bm_none_parts (sc : String → String → ℚ) (detected : List String)
    (ta : List (String × List String)) (th : ℚ) :
    (scanPairs sc th (expandDetected detected) (mkCandidates ta)).1 = none →
    (best_match_tile_activity sc detected ta th).1 = none ∧
    (best_match_tile_activity sc detected ta th).2.1 = none := by
  intro h
  simp only [best_match_tile_activity, h]
  exact ⟨trivial, trivial⟩

theorem bm_of_scan_some (sc : String → String → ℚ) (detected : List String)
    (ta : List (String × List String)) (th : ℚ) (b : BestEntry) :
    (scanPairs sc th (expandDetected detected) (mkCandidates ta)).1 = some b →
    (best_match_tile_activity sc detected ta th).1 = some b.tile ∧
    (b.act = none →
      (best_match_tile_activity sc detected ta th).2.1 = firstItemOf ta b.tile) := by
  intro h
  simp only [best_match_tile_activity, h]
  refine ⟨trivial, ?_⟩
  intro hact
  rw [hact]

theorem bm_trace_eq (sc : String → String → ℚ) (detected : List String)
    (ta : List (String × List String)) (th : ℚ) :
    (best_match_tile_activity sc detected ta th).2.2 =
      (sortDesc ((allPairs detected ta).filterMap (fun p =>
        if (60 : ℚ) ≤ pairScore sc p then some (pairRow sc p) else none))).take 10 := by
  simp only [best_match_tile_activity]
  rw [← scanPairs_snd sc th detected ta]
  rcases hs : (scanPairs sc th (expandDetected detected) (mkCandidates ta)).1 with _ | b
  · rfl
  · rfl

/-- C4: a (detected, candidate) pair becomes a match candidate exactly when
its score reaches the threshold — the matcher returns a tile iff some
visited pair scores at least the threshold, a pair scoring exactly the
threshold is accepted, and when every pair scores strictly below the
threshold (in particular one point below) nothing is matched; pairs scoring
at least 60 are retained as the debug trace, stably sorted by score
descending and cut to the top 10. -/
theorem C4_threshold_accept_and_trace :
    (∀ (sc : String → String → ℚ) (detected : List String)
        (ta : List (String × List String)) (th : ℚ),
        ((best_match_tile_activity sc detected ta th).1 ≠ none ↔
          ∃ p ∈ allPairs detected ta, th ≤ pairScore sc p)) ∧
    (∀ (sc : String → String → ℚ) (detected : List String)
        (ta : List (String × List String)) (th : ℚ),
        (best_match_tile_activity sc detected ta th).2.2 =
          (sortDesc ((allPairs detected ta).filterMap (fun p =>
            if (60 : ℚ) ≤ pairScore sc p then some (pairRow sc p) else none))).take 10) ∧
    (∀ (sc : String → String → ℚ) (detected : List String)
        (ta : List (String × List String)) (th : ℚ),
        (best_match_tile_activity sc detected ta th).2.2.Pairwise
            (fun a b => b.score ≤ a.score) ∧
        (best_match_tile_activity sc detected ta th).2.2.length ≤ 10 ∧
        ∀ r ∈ (best_match_tile_activity sc detected ta th).2.2, (60 : ℚ) ≤ r.score) ∧
    (∀ (sc : String → String → ℚ) (detected : List String)
        (ta : List (String × List String)) (th : ℚ) (p : String × Cand),
        p ∈ allPairs detected ta → pairScore sc p = th →
        (best_match_tile_activity sc detected ta th).1 ≠ none) ∧
    (∀ (sc : String → String → ℚ) (detected : List String)
        (ta : List (String × List String)) (th : ℚ),
        (∀ p ∈ allPairs detected ta, pairScore sc p < th) →
        (best_match_tile_activity sc detected ta th).1 = none ∧
        (best_match_tile_activity sc detected ta th).2.1 = none) := by
  have hnone : ∀ (sc : String → String → ℚ) (detected : List String)
      (ta : List (String × List String)) (th : ℚ),
      ((best_match_tile_activity sc detected ta th).1 = none ↔
        ∀ p ∈ allPairs detected ta, pairScore sc p < th) := by
    intro sc detected ta th
    rw [bm_fst_none_iff]
    unfold acceptedPairs
    rw [List.filter_eq_nil_iff]
    constructor
    · intro h p hp
      have := h p hp
      simp only [decide_eq_true_eq] at this
      exact not_le.mp this
    · intro h p hp
      simp only [decide_eq_true_eq]
      exact not_le.mpr (h p hp)
  refine ⟨?_, ?_, ?_, ?_, ?_⟩
  · intro sc detected ta th
    rw [Ne, hnone sc detected ta th]
    push_neg
    simp only [not_lt]
  · intro sc detected ta th
    exact bm_trace_eq sc detected ta th
  · intro sc detected ta th
    refine ⟨?_, ?_, ?_⟩
    · rw [bm_trace_eq]
      exact (sortDesc_sorted _).sublist (List.take_sublist _ _)
    · rw [bm_trace_eq]
      exact List.length_take_le _ _
    · intro r hr
      rw [bm_trace_eq] at hr
      have hr' := List.take_subset _ _ hr
      rw [sortDesc_mem] at hr'
      rcases List.mem_filterMap.mp hr' with ⟨p, _, hif⟩
      by_cases h60 : (60 : ℚ) ≤ pairScore sc p
      · rw [if_pos h60] at hif
        rw [← Option.some.inj hif]
        exact h60
      · rw [if_neg h60] at hif
        exact Option.noConfusion hif
  · intro sc detected ta th p hp hscore
    rw [Ne, hnone sc detected ta th]
    intro hall
    exact absurd (hall p hp) (by rw [hscore]; exact lt_irrefl th)
  · intro sc detected ta th hall
    have hscan : (scanPairs sc th (expandDetected detected) (mkCandidates ta)).1 =
        none := by
      rw [scanPairs_fst, bestFold_none_iff]
      refine ⟨rfl, ?_⟩
      unfold acceptedPairs
      rw [List.filter_eq_nil_iff]
      intro p hp
      simp only [decide_eq_true_eq]
      exact not_le.mpr (hall p hp)
    exact bm_none_parts sc detected ta th hscan

/-- C5: when the matcher returns a best entry, that entry is the first
accepted pair of maximal score (every earlier accepted pair scores strictly
lower, every later one at most as high), the returned tile is the winner's
tile, and a tile-only winner falls back to the tile's first item (or no
item when the tile has none). -/
theorem C5_winner_first_max_and_fallback :
    ∀ (sc : String → String → ℚ) (detected : List String)
      (ta : List (String × List String)) (th : ℚ) (b : BestEntry),
      (scanPairs sc th (expandDetected detected) (mkCandidates ta)).1 = some b →
      (∃ l₁ p l₂, acceptedPairs sc th detected ta = l₁ ++ p :: l₂ ∧
          b = pairBest sc p ∧
          (∀ q ∈ l₁, pairScore sc q < b.score) ∧
          (∀ q ∈ l₂, pairScore sc q ≤ b.score)) ∧
      (best_match_tile_activity sc detected ta th).1 = some b.tile ∧
      (b.act = none →
        (best_match_tile_activity sc detected ta th).2.1 = firstItemOf ta b.tile) := by
  intro sc detected ta th b h
  have hbf : bestFold sc none (acceptedPairs sc th detected ta) = some b := by
    rw [← scanPairs_fst sc th detected ta]
    exact h
  have hparts := bm_of_scan_some sc detected ta th b h
  refine ⟨?_, hparts.1, hparts.2⟩
  rcases bestFold_some_char sc _ none b hbf with ⟨heq, _⟩ |
    ⟨l₁, p, l₂, hsplit, hb, hl₁, hl₂, _⟩
  · exact absurd heq (by simp)
  · exact ⟨l₁, p, l₂, hsplit, hb, hl₁, hl₂⟩

theorem C5_witness :
    (best_match_tile_activity (fun d l => if d = l then 100 else 0) ["zulrah"]
        [("Zulrah", ["Tanzanite Fang"])] 88).2.1 = some "Tanzanite Fang" := by
  have h := C5_winner_first_max_and_fallback (fun d l => if d = l then 100 else 0)
    ["zulrah"] [("Zulrah", ["Tanzanite Fang"])] 88
    ⟨100, "Zulrah", none, "zulrah", "zulrah"⟩ (by decide)
  have h2 := h.2.2 rfl
  rw [h2]
  decide

theorem dropWhile_idem (p : Char → Bool) :
    ∀ l : List Char, (l.dropWhile p).dropWhile p = l.dropWhile p := by
  intro l
  induction l with
  | nil => rfl
  | cons c rest ih =>
      by_cases h : p c
      · rw [List.dropWhile_cons_of_pos h]
        exact ih
      · rw [List.dropWhile_cons_of_neg h, List.dropWhile_cons_of_neg h]

theorem dropWhile_suffix_ex (p : Char → Bool) :
    ∀ l : List Char, ∃ s, s ++ l.dropWhile p = l := by
  intro l
  induction l with
  | nil => exact ⟨[], rfl⟩
  | cons c rest ih =>
      by_cases h : p c
      · obtain ⟨s, hs⟩ := ih
        exact ⟨c :: s, by rw [List.dropWhile_cons_of_pos h, List.cons_append, hs]⟩
      · exact ⟨[], by rw [List.dropWhile_cons_of_neg h, List.nil_append]⟩

theorem dropEndWhile_ex (p : Char → Bool) (m : List Char) :
    ∃ t, dropEndWhile p m ++ t = m := by
  obtain ⟨s, hs⟩ := dropWhile_suffix_ex p m.reverse
  refine ⟨s.reverse, ?_⟩
  unfold dropEndWhile
  have h2 := congrArg List.reverse hs
  rwa [List.reverse_append, List.reverse_reverse] at h2

theorem dropWhile_head_false (p : Char → Bool) (c : Char) (l : List Char)
    (h : (c :: l).dropWhile p = c :: l) : p c = false := by
  by_cases hc : p c
  · exfalso
    rw [List.dropWhile_cons_of_pos hc] at h
    have hlen : (l.dropWhile p).length = l.length + 1 := by
      rw [h, List.length_cons]
    have hle : (l.dropWhile p).length ≤ l.length :=
      (List.dropWhile_sublist p).length_le
    omega
  · exact Bool.not_eq_true _ ▸ (by simpa using hc)

theorem dropWhile_of_fixed_front (p : Char → Bool) (m : List Char)
    (hm : m.dropWhile p = m) :
    (dropEndWhile p m).dropWhile p = dropEndWhile p m := by
  rcases hde : dropEndWhile p m with _ | ⟨a, t'⟩
  · rfl
  · obtain ⟨t, ht⟩ := dropEndWhile_ex p m
    rw [hde] at ht
    have hma : m = a :: (t' ++ t) := by rw [← ht]; simp
    have hpa : p a = false := by
      apply dropWhile_head_false p a (t' ++ t)
      rw [← hma]
      exact hm
    rw [List.dropWhile_cons_of_neg (by simp [hpa])]

theorem dropEndWhile_idem (p : Char → Bool) (x : List Char) :
    dropEndWhile p (dropEndWhile p x) = dropEndWhile p x := by
  unfold dropEndWhile
  rw [List.reverse_reverse, dropWhile_idem]

theorem pyStripL_idem (l : List Char) : pyStripL (pyStripL l) = pyStripL l := by
  unfold pyStripL
  rw [dropWhile_of_fixed_front isPySpace _ (dropWhile_idem isPySpace l)]
  exact dropEndWhile_idem isPySpace _

theorem pyStrip_idem (s : String) : pyStrip (pyStrip s) = pyStrip s := by
  unfold pyStrip
  exact congrArg String.mk (pyStripL_idem s.data)

theorem mapSet_lookup_self :
    ∀ (m : List (String × List String)) (t : String) (l : List String),
      (mapSet m t l).lookup t = some l := by
  intro m t l
  induction m with
  | nil => simp [mapSet, List.lookup]
  | cons kv rest ih =>
      rcases kv with ⟨k, v⟩
      unfold mapSet
      by_cases h : k = t
      · rw [if_pos h]
        simp [List.lookup]
      · rw [if_neg h]
        simp only [List.lookup]
        have hbeq : (t == k) = false := by simp [Ne.symm h]
        rw [hbeq]
        exact ih

theorem mapSet_lookup_other :
    ∀ (m : List (String × List String)) (t : String) (l : List String)
      (t' : String), t' ≠ t → (mapSet m t l).lookup t' = m.lookup t' := by
  intro m t l t' hne
  induction m with
  | nil =>
      have hbeq : (t' == t) = false := by simp [hne]
      simp [mapSet, List.lookup, hbeq]
  | cons kv rest ih =>
      rcases kv with ⟨k, v⟩
      unfold mapSet
      by_cases h : k = t
      · subst h
        rw [if_pos rfl]
        have hbeq : (t' == k) = false := by simp [hne]
        simp only [List.lookup, hbeq]
      · rw [if_neg h]
        simp only [List.lookup]
        cases hk : (t' == k) with
        | true => rfl
        | false => exact ih

theorem loadItemFold_lookup_other (tile t : String) (hne : t ≠ tile) :
    ∀ (its : List String) (m : List (String × List String)),
      ((its.foldl (loadItemStep tile) m).lookup t) = m.lookup t := by
  intro its
  induction its with
  | nil => intro m; rfl
  | cons it rest ih =>
      intro m
      rw [List.foldl_cons, ih]
      unfold loadItemStep
      by_cases h : ((((m.lookup tile).getD []).map pyLower).contains (pyLower it))
      · rw [if_pos h]
      · rw [if_neg h]
        exact mapSet_lookup_other _ _ _ _ hne

theorem loadItemFold_lookup_self (tile : String) :
    ∀ (its : List String) (m : List (String × List String)),
      ((its.foldl (loadItemStep tile) m).lookup tile) =
        match m.lookup tile with
        | some l => some (its.foldl addItemCI l)
        | none => if its = [] then none else some (its.foldl addItemCI []) := by
  intro its
  induction its with
  | nil =>
      intro m
      cases h : m.lookup tile <;> simp [h]
  | cons it rest ih =>
      intro m
      rw [List.foldl_cons]
      cases h : m.lookup tile with
      | some l =>
          simp only [h]
          by_cases hdup : ((l.map pyLower).contains (pyLower it))
          · have hstep : loadItemStep tile m it = m := by
              unfold loadItemStep
              rw [h]
              simp only [Option.getD_some]
              rw [if_pos hdup]
            have hadd : addItemCI l it = l := by
              unfold addItemCI
              rw [if_pos hdup]
            rw [hstep, ih m, h, List.foldl_cons, hadd]
          · have hstep : loadItemStep tile m it = mapSet m tile (l ++ [it]) := by
              unfold loadItemStep
              rw [h]
              simp only [Option.getD_some]
              rw [if_neg hdup]
            have hadd : addItemCI l it = l ++ [it] := by
              unfold addItemCI
              rw [if_neg hdup]
            rw [hstep, ih _, mapSet_lookup_self, List.foldl_cons, hadd]
      | none =>
          simp only [h]
          have hstep : loadItemStep tile m it = mapSet m tile [it] := by
            unfold loadItemStep
            rw [h]
            simp
          have hadd : addItemCI [] it = [it] := by
            unfold addItemCI
            simp
          rw [hstep, ih _, mapSet_lookup_self, List.foldl_cons, hadd]
          simp

theorem addItemCI_ne_nil (acc : List String) (it : String) (h : acc ≠ []) :
    addItemCI acc it ≠ [] := by
  unfold addItemCI
  by_cases hdup : ((acc.map pyLower).contains (pyLower it))
  · rw [if_pos hdup]; exact h
  · rw [if_neg hdup]; simp

theorem addItemCIFold_ne_nil :
    ∀ (its : List String) (acc : List String), acc ≠ [] →
      its.foldl addItemCI acc ≠ [] := by
  intro its
  induction its with
  | nil => intro acc h; exact h
  | cons it rest ih =>
      intro acc h
      rw [List.foldl_cons]
      exact ih _ (addItemCI_ne_nil acc it h)

theorem addItemCIFold_cons_ne_nil (it : String) (rest : List String) :
    (it :: rest).foldl addItemCI [] ≠ [] := by
  rw [List.foldl_cons]
  have h1 : addItemCI [] it = [it] := by unfold addItemCI; simp
  rw [h1]
  exact addItemCIFold_ne_nil rest [it] (by simp)

theorem itemsRowFold_ne_nil (t : String) :
    ∀ (rs : List (List String)) (acc : List String), acc ≠ [] →
      rs.foldl (itemsRowStep t) acc ≠ [] := by
  intro rs
  induction rs with
  | nil => intro acc h; exact h
  | cons row rest ih =>
      intro acc h
      rw [List.foldl_cons]
      apply ih
      unfold itemsRowStep
      by_cases hrow : row = []
      · rw [if_pos hrow]; exact h
      · rw [if_neg hrow]
        dsimp only
        by_cases hblank : pyStrip (row.headD "") = ""
        · rw [if_pos hblank]; exact h
        · rw [if_neg hblank]
          by_cases heq : pyStrip (row.headD "") = t
          · rw [if_pos heq]
            exact addItemCIFold_ne_nil _ acc h
          · rw [if_neg heq]; exact h

theorem lookup_map_snd :
    ∀ (m : List (String × List String)) (f : List String → List String)
      (t : String),
      ((m.map (fun kv => (kv.1, f kv.2))).lookup t) = (m.lookup t).map f := by
  intro m f t
  induction m with
  | nil => rfl
  | cons kv rest ih =>
      rcases kv with ⟨k, v⟩
      rw [List.map_cons]
      simp only [List.lookup]
      cases hk : (t == k) with
      | true => rfl
      | false => exact ih

theorem loadFold_lookup :
    ∀ (rs : List (List String)) (st0 : List String × List (String × List String))
      (t : String),
      ((rs.foldl loadRowStep st0).2).lookup t =
        match st0.2.lookup t with
        | some l => some (rs.foldl (itemsRowStep t) l)
        | none =>
            if rs.foldl (itemsRowStep t) ([] : List String) = [] then none
            else some (rs.foldl (itemsRowStep t) ([] : List String)) := by
  intro rs
  induction rs with
  | nil =>
      intro st0 t
      cases h : st0.2.lookup t <;> simp [h]
  | cons row rest ih =>
      intro st0 t
      rw [List.foldl_cons]
      by_cases hrow : row = []
      · have h1 : loadRowStep st0 row = st0 := by
          unfold loadRowStep; rw [if_pos hrow]
        have h2 : ∀ acc : List String, itemsRowStep t acc row = acc := by
          intro acc; unfold itemsRowStep; rw [if_pos hrow]
        rw [h1, ih st0 t]
        cases h : st0.2.lookup t <;> simp [h, List.foldl_cons, h2]
      · by_cases hblank : pyStrip (row.headD "") = ""
        · have h1 : loadRowStep st0 row = st0 := by
            unfold loadRowStep
            rw [if_neg hrow]
            dsimp only
            rw [if_pos hblank]
          have h2 : ∀ acc : List String, itemsRowStep t acc row = acc := by
            intro acc
            unfold itemsRowStep
            rw [if_neg hrow]
            dsimp only
            rw [if_pos hblank]
          rw [h1, ih st0 t]
          cases h : st0.2.lookup t <;> simp [h, List.foldl_cons, h2]
        · have h1 : (loadRowStep st0 row).2 =
              (split_items_field (pyStrip (row.getD 2 ""))).foldl
                (loadItemStep (pyStrip (row.headD ""))) st0.2 := by
            unfold loadRowStep
            rw [if_neg hrow]
            dsimp only
            rw [if_neg hblank]
          by_cases heq : pyStrip (row.headD "") = t
          · have h2 : ∀ acc : List String, itemsRowStep t acc row =
                (split_items_field (pyStrip (row.getD 2 ""))).foldl addItemCI acc := by
              intro acc
              unfold itemsRowStep
              rw [if_neg hrow]
              dsimp only
              rw [if_neg hblank, if_pos heq]
            have hst1 : (loadRowStep st0 row).2.lookup t =
                match st0.2.lookup t with
                | some l =>
                    some ((split_items_field (pyStrip (row.getD 2 ""))).foldl
                      addItemCI l)
                | none =>
                    if (split_items_field (pyStrip (row.getD 2 ""))) = [] then none
                    else some ((split_items_field (pyStrip (row.getD 2 ""))).foldl
                      addItemCI []) := by
              rw [h1, heq]
              exact loadItemFold_lookup_self t _ st0.2
            rw [ih (loadRowStep st0 row) t, hst1]
            cases h : st0.2.lookup t with
            | some l =>
                simp only [h, List.foldl_cons, h2]
            | none =>
                simp only [h]
                by_cases hempty : (split_items_field (pyStrip (row.getD 2 ""))) = []
                · simp only [hempty, List.foldl_cons, h2, List.foldl_nil]
                  simp
                · rw [if_neg hempty]
                  dsimp only
                  rw [List.foldl_cons, h2]
                  have hL0 : (split_items_field
                      (pyStrip (row.getD 2 ""))).foldl addItemCI [] ≠ [] := by
                    rcases hits : split_items_field (pyStrip (row.getD 2 ""))
                      with _ | ⟨it, its'⟩
                    · exact absurd hits hempty
                    · exact addItemCIFold_cons_ne_nil it its'
                  have hrest : rest.foldl (itemsRowStep t)
                      ((split_items_field (pyStrip (row.getD 2 ""))).foldl
                        addItemCI []) ≠ [] :=
                    itemsRowFold_ne_nil t rest _ hL0
                  rw [if_neg hrest]
          · have h2 : ∀ acc : List String, itemsRowStep t acc row = acc := by
              intro acc
              unfold itemsRowStep
              rw [if_neg hrow]
              dsimp only
              rw [if_neg hblank, if_neg heq]
            have hst1 : (loadRowStep st0 row).2.lookup t = st0.2.lookup t := by
              rw [h1]
              exact loadItemFold_lookup_other _ t (fun hh => heq hh.symm) _ st0.2
            rw [ih (loadRowStep st0 row) t, hst1]
            cases h : st0.2.lookup t <;> simp [h, List.foldl_cons, h2]

theorem addItemCI_pairwise (acc : List String) (it : String)
    (h : acc.Pairwise (fun a b => pyLower a ≠ pyLower b)) :
    (addItemCI acc it).Pairwise (fun a b => pyLower a ≠ pyLower b) := by
  unfold addItemCI
  by_cases hdup : ((acc.map pyLower).contains (pyLower it))
  · rw [if_pos hdup]; exact h
  · rw [if_neg hdup]
    rw [List.pairwise_append]
    refine ⟨h, by simp, ?_⟩
    intro a ha b hb
    have hb' : b = it := by simpa using hb
    subst hb'
    intro hcontra
    have hmem : pyLower b ∈ acc.map pyLower := List.mem_map.mpr ⟨a, ha, hcontra⟩
    exact hdup (by simpa using hmem)

theorem addItemCI_mem (acc : List String) (it x : String)
    (h : x ∈ addItemCI acc it) : x ∈ acc ∨ x = it := by
  unfold addItemCI at h
  by_cases hdup : ((acc.map pyLower).contains (pyLower it))
  · rw [if_pos hdup] at h; exact Or.inl h
  · rw [if_neg hdup] at h
    simpa using h

theorem addItemCIFold_pairwise :
    ∀ (its acc : List String),
      acc.Pairwise (fun a b => pyLower a ≠ pyLower b) →
      (its.foldl addItemCI acc).Pairwise (fun a b => pyLower a ≠ pyLower b) := by
  intro its
  induction its with
  | nil => intro acc h; exact h
  | cons it rest ih =>
      intro acc h
      rw [List.foldl_cons]
      exact ih _ (addItemCI_pairwise acc it h)

theorem addItemCIFold_mem :
    ∀ (its acc : List String) (x : String),
      x ∈ its.foldl addItemCI acc → x ∈ acc ∨ x ∈ its := by
  intro its
  induction its with
  | nil => intro acc x h; exact Or.inl h
  | cons it rest ih =>
      intro acc x h
      rw [List.foldl_cons] at h
      rcases ih _ x h with h' | h'
      · rcases addItemCI_mem acc it x h' with h'' | h''
        · exact Or.inl h''
        · exact Or.inr (by simp [h''])
      · exact Or.inr (List.mem_cons_of_mem _ h')

theorem itemsRowStep_pairwise (t : String) (acc : List String)
    (row : List String)
    (h : acc.Pairwise (fun a b => pyLower a ≠ pyLower b)) :
    (itemsRowStep t acc row).Pairwise (fun a b => pyLower a ≠ pyLower b) := by
  unfold itemsRowStep
  by_cases hrow : row = []
  · rw [if_pos hrow]; exact h
  · rw [if_neg hrow]
    dsimp only
    by_cases hblank : pyStrip (row.headD "") = ""
    · rw [if_pos hblank]; exact h
    · rw [if_neg hblank]
      by_cases heq : pyStrip (row.headD "") = t
      · rw [if_pos heq]
        exact addItemCIFold_pairwise _ acc h
      · rw [if_neg heq]; exact h

theorem itemsRowStep_mem (t : String) (acc : List String) (row : List String)
    (x : String) (h : x ∈ itemsRowStep t acc row) :
    x ∈ acc ∨ x ∈ split_items_field (pyStrip (row.getD 2 "")) := by
  unfold itemsRowStep at h
  by_cases hrow : row = []
  · rw [if_pos hrow] at h; exact Or.inl h
  · rw [if_neg hrow] at h
    dsimp only at h
    by_cases hblank : pyStrip (row.headD "") = ""
    · rw [if_pos hblank] at h; exact Or.inl h
    · rw [if_neg hblank] at h
      by_cases heq : pyStrip (row.headD "") = t
      · rw [if_pos heq] at h
        exact addItemCIFold_mem _ acc x h
      · rw [if_neg heq] at h; exact Or.inl h

theorem itemsAccum_pairwise (rows : List (List String)) (t : String) :
    (itemsAccum rows t).Pairwise (fun a b => pyLower a ≠ pyLower b) := by
  have haux : ∀ (rs : List (List String)) (acc : List String),
      acc.Pairwise (fun a b => pyLower a ≠ pyLower b) →
      (rs.foldl (itemsRowStep t) acc).Pairwise
        (fun a b => pyLower a ≠ pyLower b) := by
    intro rs
    induction rs with
    | nil => intro acc h; exact h
    | cons row rest ih =>
        intro acc h
        rw [List.foldl_cons]
        exact ih _ (itemsRowStep_pairwise t acc row h)
  exact haux _ [] (by simp)

theorem splitDedup_mem :
    ∀ (pieces : List String) (st : List String × List String) (x : String),
      x ∈ (pieces.foldl splitDedupStep st).1 → x ∈ st.1 ∨ x ∈ pieces := by
  intro pieces
  induction pieces with
  | nil => intro st x h; exact Or.inl h
  | cons p rest ih =>
      intro st x h
      rw [List.foldl_cons] at h
      rcases ih _ x h with h' | h'
      · unfold splitDedupStep at h'
        by_cases hp : p = ""
        · rw [if_pos hp] at h'; exact Or.inl h'
        · rw [if_neg hp] at h'
          by_cases hseen : (pyLower p) ∈ st.2
          · rw [if_pos hseen] at h'; exact Or.inl h'
          · rw [if_neg hseen] at h'
            dsimp only at h'
            rcases List.mem_append.mp h' with h'' | h''
            · exact Or.inl h''
            · have hxp : x = p := by simpa using h''
              exact Or.inr (by simp [hxp])
      · exact Or.inr (List.mem_cons_of_mem _ h')

theorem split_items_strip (s : String) (x : String)
    (h : x ∈ split_items_field s) : pyStrip x = x := by
  unfold split_items_field at h
  by_cases hs : s = ""
  · rw [if_pos hs] at h; simp at h
  · rw [if_neg hs] at h
    dsimp only at h
    rcases splitDedup_mem _ _ x h with h' | h'
    · simp at h'
    · rcases List.mem_map.mp h' with ⟨p, _, hp⟩
      rw [← hp]
      unfold pyStrip
      exact congrArg String.mk (pyStripL_idem p)

theorem itemsAccum_strip (rows : List (List String)) (t x : String)
    (h : x ∈ itemsAccum rows t) : pyStrip x = x := by
  have haux : ∀ (rs : List (List String)) (acc : List String),
      (∀ y ∈ acc, pyStrip y = y) →
      ∀ y ∈ rs.foldl (itemsRowStep t) acc, pyStrip y = y := by
    intro rs
    induction rs with
    | nil => intro acc hacc y hy; exact hacc y hy
    | cons row rest ih =>
        intro acc hacc y hy
        rw [List.foldl_cons] at hy
        refine ih _ ?_ y hy
        intro z hz
        rcases itemsRowStep_mem t acc row z hz with h' | h'
        · exact hacc z h'
        · exact split_items_strip _ z h'
  exact haux _ [] (by simp) x h

theorem loadRowStep_names (st : List String × List (String × List String))
    (row : List String) :
    (loadRowStep st row).1 = st.1 ∨
    (∃ tile, (loadRowStep st row).1 = st.1 ++ [tile] ∧ pyStrip tile = tile ∧
      ((st.1.map pyLower).contains (pyLower tile)) = false) := by
  unfold loadRowStep
  by_cases hrow : row = []
  · rw [if_pos hrow]; exact Or.inl rfl
  · rw [if_neg hrow]
    dsimp only
    by_cases hblank : pyStrip (row.headD "") = ""
    · rw [if_pos hblank]; exact Or.inl rfl
    · rw [if_neg hblank]
      by_cases hc : ((st.1.map pyLower).contains (pyLower (pyStrip (row.headD ""))))
      · left
        dsimp only
        rw [if_pos hc]
      · right
        refine ⟨pyStrip (row.headD ""), ?_, pyStrip_idem _, by simpa using hc⟩
        dsimp only
        rw [if_neg hc]

theorem loadFold_names_pairwise :
    ∀ (rs : List (List String)) (st0 : List String × List (String × List String)),
      st0.1.Pairwise (fun a b => pyLower a ≠ pyLower b) →
      ((rs.foldl loadRowStep st0).1).Pairwise (fun a b => pyLower a ≠ pyLower b) := by
  intro rs
  induction rs with
  | nil => intro st0 h; exact h
  | cons row rest ih =>
      intro st0 h
      rw [List.foldl_cons]
      refine ih _ ?_
      rcases loadRowStep_names st0 row with h' | ⟨tile, h', _, hc⟩
      · rw [h']; exact h
      · rw [h']
        rw [List.pairwise_append]
        refine ⟨h, by simp, ?_⟩
        intro a ha b hb
        have hb' : b = tile := by simpa using hb
        subst hb'
        intro hcontra
        have hmem : pyLower b ∈ st0.1.map pyLower := List.mem_map.mpr ⟨a, ha, hcontra⟩
        have : (st0.1.map pyLower).contains (pyLower b) = true := by simpa using hmem
        rw [this] at hc
        exact Bool.noConfusion hc

theorem loadFold_names_strip :
    ∀ (rs : List (List String)) (st0 : List String × List (String × List String)),
      (∀ x ∈ st0.1, pyStrip x = x) →
      ∀ x ∈ (rs.foldl loadRowStep st0).1, pyStrip x = x := by
  intro rs
  induction rs with
  | nil => intro st0 h x hx; exact h x hx
  | cons row rest ih =>
      intro st0 h x hx
      rw [List.foldl_cons] at hx
      refine ih _ ?_ x hx
      intro z hz
      rcases loadRowStep_names st0 row with h' | ⟨tile, h', htile, _⟩
      · rw [h'] at hz; exact h z hz
      · rw [h'] at hz
        rcases List.mem_append.mp hz with hz' | hz'
        · exact h z hz'
        · have : z = tile := by simpa using hz'
          rw [this]
          exact htile

theorem load_items_lookup (rows : List (List String)) (t : String) :
    ((load_from_tiles_sheet rows).2).lookup t =
      if itemsAccum rows t = [] then none
      else some ((itemsAccum rows t).take 25) := by
  simp only [load_from_tiles_sheet]
  rw [lookup_map_snd _ (fun l => l.take 25) t, loadFold_lookup]
  dsimp only
  have hacc : (rows.drop 1).foldl (itemsRowStep t) [] = itemsAccum rows t := rfl
  rw [hacc]
  by_cases h : itemsAccum rows t = []
  · rw [if_pos h, if_pos h]
    rfl
  · rw [if_neg h, if_neg h]
    rfl

/-- C7 (amended): the taxonomy produced by the loader has tile names that
are unique under case-insensitive comparison and whitespace-trimmed; each
map entry holds, for the entry's exact tile spelling, the case-insensitive
union (in first-appearance order) of the items of every row with exactly
that stripped tile name, capped at 25; every item list is
case-insensitively unique, whitespace-trimmed, and at most 25 long.  (A
tile repeated with identical spelling is thus unioned under that tile; a
tile repeated with a different letter-case is listed once in the name
sequence but its items stay under its own spelling — see the
counterexample.) -/
theorem C7_taxonomy_amended :
    (∀ rows, ((load_from_tiles_sheet rows).1).Pairwise
        (fun a b => pyLower a ≠ pyLower b)) ∧
    (∀ rows, ∀ t ∈ (load_from_tiles_sheet rows).1, pyStrip t = t) ∧
    (∀ rows t, ((load_from_tiles_sheet rows).2).lookup t =
        if itemsAccum rows t = [] then none
        else some ((itemsAccum rows t).take 25)) ∧
    (∀ rows t l, ((load_from_tiles_sheet rows).2).lookup t = some l →
        l.length ≤ 25 ∧
        l.Pairwise (fun a b => pyLower a ≠ pyLower b) ∧
        ∀ it ∈ l, pyStrip it = it) := by
  refine ⟨?_, ?_, fun rows t => load_items_lookup rows t, ?_⟩
  · intro rows
    simp only [load_from_tiles_sheet]
    exact loadFold_names_pairwise _ _ (by simp)
  · intro rows t ht
    simp only [load_from_tiles_sheet] at ht
    exact loadFold_names_strip _ _ (by simp) t ht
  · intro rows t l hl
    rw [load_items_lookup rows t] at hl
    by_cases h : itemsAccum rows t = []
    · rw [if_pos h] at hl
      exact Option.noConfusion hl
    · rw [if_neg h] at hl
      have hl' : l = (itemsAccum rows t).take 25 := (Option.some.inj hl).symm
      subst hl'
      refine ⟨List.length_take_le _ _, ?_, ?_⟩
      · exact (itemsAccum_pairwise rows t).sublist (List.take_sublist _ _)
      · intro it hit
        exact itemsAccum_strip rows t it (List.take_subset _ _ hit)

/-- C7 (counterexample to the claim as stated): on a concrete sheet where
the tile repeats with a different letter-case, the ordered name list holds
the first spelling once, yet the later row's item is recorded under the
case-variant key and is not unioned under the listed tile. -/
theorem C7_counterexample :
    (load_from_tiles_sheet
      [["Tile", "Act", "Items"], ["A", "", "x"], ["a", "", "y"]]).1 = ["A"] ∧
    pyLower "a" = pyLower "A" ∧
    ((load_from_tiles_sheet
      [["Tile", "Act", "Items"], ["A", "", "x"], ["a", "", "y"]]).2.lookup "a") =
      some ["y"] ∧
    "y" ∉ (((load_from_tiles_sheet
      [["Tile", "Act", "Items"], ["A", "", "x"], ["a", "", "y"]]).2.lookup
        "A").getD []) := by
  decide
